import Mathlib

/-!
Verification of the QtLucide resource pipeline (Python tools) against its
natural-language specification.

The Python sources are shallowly embedded:
* strings are Lean `String`s, compared character-by-character on code points
  exactly as Python compares `str` values;
* Python `dict`s are association lists with insert-or-replace semantics
  (insertion order preserved, as in CPython), and `QHash` initialisation from
  a brace list is modelled as later entries overwriting earlier ones for the
  same key, which is what `QHash::insert` does;
* Python `sorted` is modelled by insertion sort over the code-point order
  (any correct sort of a duplicate-free string list yields the same list);
* `list(set(...))` (whose order is unspecified in Python) is modelled as a
  first-occurrence deduplication; no theorem below depends on that order.
-/

namespace QtLucide

/-- Python string comparison, `a <= b` on lists of code points. -/
def charListLe : List Char → List Char → Bool
  | [], _ => true
  | _ :: _, [] => false
  | a :: as, b :: bs => if a < b then true else if b < a then false else charListLe as bs

/-- Python `a <= b` on strings (lexicographic on code points). -/
def pyLE (a b : String) : Prop := charListLe a.toList b.toList = true

instance : DecidableRel pyLE := fun _ _ => inferInstanceAs (Decidable (_ = true))

theorem charListLe_total : ∀ x y : List Char, charListLe x y = true ∨ charListLe y x = true
  | [], _ => Or.inl rfl
  | _ :: _, [] => Or.inr rfl
  | a :: as, b :: bs => by
    rcases lt_trichotomy a b with h | h | h
    · exact Or.inl (by simp [charListLe, h])
    · subst h
      rcases charListLe_total as bs with ih | ih
      · exact Or.inl (by simp [charListLe, ih])
      · exact Or.inr (by simp [charListLe, ih])
    · exact Or.inr (by simp [charListLe, h])

theorem charListLe_trans :
    ∀ {x y z : List Char}, charListLe x y = true → charListLe y z = true →
      charListLe x z = true
  | [], _, _, _, _ => rfl
  | _ :: _, [], _, hxy, _ => by simp [charListLe] at hxy
  | _ :: _, _ :: _, [], _, hyz => by simp [charListLe] at hyz
  | a :: as, b :: bs, c :: cs, hxy, hyz => by
    by_cases hab : a < b
    · by_cases hbc : b < c
      · simp [charListLe, lt_trans hab hbc]
      · by_cases hcb : c < b
        · simp [charListLe, hbc, hcb] at hyz
        · have : b = c := le_antisymm (not_lt.mp hcb) (not_lt.mp hbc)
          subst this
          simp [charListLe, hab]
    · by_cases hba : b < a
      · simp [charListLe, hab, hba] at hxy
      · have hab' : a = b := le_antisymm (not_lt.mp hba) (not_lt.mp hab)
        subst hab'
        simp only [charListLe, if_neg (lt_irrefl a)] at hxy
        by_cases hac : a < c
        · simp [charListLe, hac]
        · by_cases hca : c < a
          · simp [charListLe, hac, hca] at hyz
          · have : a = c := le_antisymm (not_lt.mp hca) (not_lt.mp hac)
            subst this
            simp only [charListLe, if_neg (lt_irrefl a)] at hyz ⊢
            exact charListLe_trans hxy hyz

theorem charListLe_antisymm :
    ∀ {x y : List Char}, charListLe x y = true → charListLe y x = true → x = y
  | [], [], _, _ => rfl
  | [], _ :: _, _, hyx => by simp [charListLe] at hyx
  | _ :: _, [], hxy, _ => by simp [charListLe] at hxy
  | a :: as, b :: bs, hxy, hyx => by
    by_cases hab : a < b
    · simp [charListLe, hab, asymm hab, lt_irrefl] at hyx
    · by_cases hba : b < a
      · simp [charListLe, hab, hba] at hxy
      · have hab' : a = b := le_antisymm (not_lt.mp hba) (not_lt.mp hab)
        subst hab'
        simp only [charListLe, if_neg (lt_irrefl a)] at hxy hyx
        exact congrArg (a :: ·) (charListLe_antisymm hxy hyx)

instance : IsTotal String pyLE := ⟨fun a b => charListLe_total a.toList b.toList⟩

instance : IsTrans String pyLE := ⟨fun _ _ _ h1 h2 => charListLe_trans h1 h2⟩

instance : IsAntisymm String pyLE :=
  ⟨fun _ _ h1 h2 => String.ext (charListLe_antisymm h1 h2)⟩

/-- Python `sorted(...)` on a list of strings. -/
def pySorted (l : List String) : List String := List.insertionSort pyLE l

theorem pySorted_perm (l : List String) : (pySorted l).Perm l :=
  List.perm_insertionSort pyLE l

theorem pySorted_sorted (l : List String) : List.Sorted pyLE (pySorted l) :=
  List.sorted_insertionSort pyLE l

/-- Python `enumerate(...)` starting at index `i`. -/
def enumerateFrom (i : Nat) : List α → List (Nat × α)
  | [] => []
  | a :: as => (i, a) :: enumerateFrom (i + 1) as

theorem enumerateFrom_append (i : Nat) (l₁ l₂ : List α) :
    enumerateFrom i (l₁ ++ l₂) = enumerateFrom i l₁ ++ enumerateFrom (i + l₁.length) l₂ := by
  induction l₁ generalizing i with
  | nil => simp [enumerateFrom]
  | cons a as ih =>
    have he : i + 1 + as.length = i + (as.length + 1) := by omega
    simp [enumerateFrom, ih (i + 1), he]

theorem enumerateFrom_mem_get :
    ∀ {l : List α} {i : Nat} {p : Nat × α}, p ∈ enumerateFrom i l →
      i ≤ p.1 ∧ l.get? (p.1 - i) = some p.2
  | [], _, _, h => by simp [enumerateFrom] at h
  | a :: as, i, p, h => by
    rcases List.mem_cons.mp h with h | h
    · subst h; simp
    · obtain ⟨h1, h2⟩ := enumerateFrom_mem_get h
      refine ⟨by omega, ?_⟩
      have he : p.1 - i = (p.1 - (i + 1)) + 1 := by omega
      rw [he]
      simpa using h2

/-! ## `tools/generate_headers.py` -/

/-- Character class `[a-zA-Z0-9_]` of the regex in `_name_to_enum`. -/
def isWordChar (c : Char) : Bool :=
  ('a' ≤ c && c ≤ 'z') || ('A' ≤ c && c ≤ 'Z') || ('0' ≤ c && c ≤ '9') || c = '_'

/-- The `cpp_keywords` set hard-coded in `_name_to_enum`. -/
def cppKeywords : List String :=
  ["delete", "new", "class", "struct", "enum", "union", "typedef", "static",
   "const", "volatile", "inline", "virtual", "explicit", "operator", "template",
   "typename", "namespace", "using", "public", "private", "protected", "friend",
   "extern", "register", "auto", "void", "char", "short", "int", "long",
   "float", "double", "signed", "unsigned", "bool", "true", "false", "if",
   "else", "for", "while", "do", "switch", "case", "default", "break",
   "continue", "return", "goto", "try", "catch", "throw", "sizeof"]

/-- Step 1 of `_name_to_enum`: `re.sub(r"[^a-zA-Z0-9_]", "_", name)`. -/
def replaceNonWord (name : String) : String :=
  String.mk (name.toList.map (fun c => if isWordChar c then c else '_'))

/-- Step 2 of `_name_to_enum`: `re.sub(r"^(\d)", r"Icon_\1", ...)` — prefixes
the marker token `Icon_` when the first character is a digit (after step 1
every character is ASCII, so `\d` is exactly `Char.isDigit`). -/
def escapeLeadingDigit (s : String) : String :=
  match s.toList with
  | c :: _ => if c.isDigit then "Icon_" ++ s else s
  | [] => s

/-- Step 3 of `_name_to_enum`: prefix the escape token `icon_` on a collision
with `cpp_keywords`. -/
def escapeKeyword (s : String) : String :=
  if s ∈ cppKeywords then "icon_" ++ s else s

/-- `QtLucideHeaderGenerator._name_to_enum`. -/
def nameToEnum (name : String) : String :=
  let e1 := replaceNonWord name
  let e2 := escapeLeadingDigit e1
  escapeKeyword e2

/-- The `(ordinal, name)` pairs emitted by `generate_enums_header`
(`enumerate(sorted(self.icons_data.keys()))`); the enum line for
`name` reads `nameToEnum name = ordinal`. -/
def enumOrdinalPairs (names : List String) : List (Nat × String) :=
  enumerateFrom 0 (pySorted names)

/-- The `ICON_COUNT` constant of the enum header: `len(self.icons_data)`. -/
def iconCountConstant (names : List String) : Nat := names.length

/-- The `(symbol, original-name)` entries of `ICON_TO_STRING_MAP` in
`generate_strings_header`, in emission (sorted-name) order. -/
def stringEntries (names : List String) : List (String × String) :=
  (pySorted names).map (fun n => (nameToEnum n, n))

/-- The enumerator names the enum header declares, in emission order.  Valid
C++ requires these to be pairwise distinct: when two catalog names normalise
to the same symbol, `generate_enums_header` emits the same enumerator twice
and the generated header does not compile, so neither lookup map exists. -/
def enumSymbols (names : List String) : List String :=
  (pySorted names).map nameToEnum

/-- `ICON_TO_STRING_MAP` of the generated strings header.  The model is the
association map of the emitted entries and is meaningful for catalogs whose
generated symbols are pairwise distinct (then every key occurs once and the
`QHash` holds exactly these entries); for colliding catalogs the generated
code is ill-formed C++ and the program produces no map at all. -/
def iconToStringMap (names : List String) : String → Option String :=
  fun s => ((stringEntries names).find? (fun p => p.1 = s)).map Prod.snd

/-- `STRING_TO_ICON_MAP`: `createStringToIconMap` iterates
`ICON_TO_STRING_MAP` and stores `map[it.value()] = it.key()`; with pairwise
distinct symbols this is the inverse association map of the same entries
(the original names of a catalog are pairwise distinct dict keys). -/
def stringToIconMap (names : List String) : String → Option String :=
  fun m => ((stringEntries names).find? (fun p => p.2 = m)).map Prod.fst

theorem find?_key_of_nodup {l : List (String × String)} {k v : String}
    (hnd : (l.map Prod.fst).Nodup) (hmem : (k, v) ∈ l) :
    l.find? (fun p => p.1 = k) = some (k, v) := by
  induction l with
  | nil => simp at hmem
  | cons q l ih =>
    simp only [List.map_cons, List.nodup_cons] at hnd
    by_cases hq : q.1 = k
    · rw [@List.find?_cons_of_pos _ (fun p => decide (p.1 = k)) q l (by simpa using hq)]
      rcases List.mem_cons.mp hmem with h | h
      · rw [h]
      · exact absurd (hq ▸ List.mem_map_of_mem Prod.fst h) hnd.1
    · rw [@List.find?_cons_of_neg _ (fun p => decide (p.1 = k)) q l (by simpa using hq)]
      rcases List.mem_cons.mp hmem with h | h
      · exact absurd (congrArg Prod.fst h.symm) hq
      · exact ih hnd.2 h

theorem find?_val_of_nodup {l : List (String × String)} {k v : String}
    (hnd : (l.map Prod.snd).Nodup) (hmem : (k, v) ∈ l) :
    l.find? (fun p => p.2 = v) = some (k, v) := by
  induction l with
  | nil => simp at hmem
  | cons q l ih =>
    simp only [List.map_cons, List.nodup_cons] at hnd
    by_cases hq : q.2 = v
    · rw [@List.find?_cons_of_pos _ (fun p => decide (p.2 = v)) q l (by simpa using hq)]
      rcases List.mem_cons.mp hmem with h | h
      · rw [h]
      · exact absurd (hq ▸ List.mem_map_of_mem Prod.snd h) hnd.1
    · rw [@List.find?_cons_of_neg _ (fun p => decide (p.2 = v)) q l (by simpa using hq)]
      rcases List.mem_cons.mp hmem with h | h
      · exact absurd (congrArg Prod.snd h.symm) hq
      · exact ih hnd.2 h

theorem stringEntries_fst_eq (names : List String) {p : String × String}
    (hp : p ∈ stringEntries names) : p.1 = nameToEnum p.2 := by
  obtain ⟨n, _, rfl⟩ := List.mem_map.mp hp
  rfl

theorem mem_stringEntries (names : List String) {n : String} (hn : n ∈ names) :
    (nameToEnum n, n) ∈ stringEntries names :=
  List.mem_map_of_mem _ ((pySorted_perm names).mem_iff.mpr hn)

theorem stringEntries_snd (names : List String) :
    (stringEntries names).map Prod.snd = pySorted names := by
  simp [stringEntries, List.map_map, Function.comp_def]

/-- Core lemma for the amended C1: when the generated symbols are pairwise
distinct (the generated header compiles), every catalog name round-trips
through `ICON_TO_STRING_MAP` and `STRING_TO_ICON_MAP`. -/
theorem lookup_roundtrip (names : List String) (hinj : (enumSymbols names).Nodup)
    {n : String} (hn : n ∈ names) :
    iconToStringMap names (nameToEnum n) = some n ∧
      stringToIconMap names n = some (nameToEnum n) := by
  have hmem : (nameToEnum n, n) ∈ stringEntries names := mem_stringEntries names hn
  have hfst : (stringEntries names).map Prod.fst = enumSymbols names := by
    simp [stringEntries, enumSymbols, List.map_map, Function.comp_def]
  have hkeys : ((stringEntries names).map Prod.fst).Nodup := by
    rw [hfst]
    exact hinj
  have hnames : ((stringEntries names).map Prod.snd).Nodup := by
    rw [stringEntries_snd]
    exact List.Nodup.of_map nameToEnum (by rw [← enumSymbols]; exact hinj)
  constructor
  · rw [iconToStringMap, find?_key_of_nodup hkeys hmem]
    rfl
  · rw [stringToIconMap, find?_val_of_nodup hnames hmem]
    rfl

/-- Spec §4.2 step 1, written from the spec wording: replace every character
outside `[A-Za-z0-9_]` with an underscore. -/
def specStep1 (s : String) : String :=
  String.mk (s.toList.map (fun c => if isWordChar c then c else '_'))

/-- Spec §4.2 step 2, written from the spec wording: if the result starts
with a digit, put the fixed marker token in front. -/
def specStep2 (s : String) : String :=
  if ((s.toList.head?.map Char.isDigit).getD false) then "Icon_" ++ s else s

/-- Spec §4.2 step 3, written from the spec wording: if the result is one of
the closed set of reserved words, put the fixed escape token in front. -/
def specStep3 (s : String) : String :=
  if s ∈ cppKeywords then "icon_" ++ s else s

theorem pySorted_append_last (names : List String) (x : String)
    (hx : ∀ m ∈ names, pyLE m x) :
    pySorted (names ++ [x]) = pySorted names ++ [x] := by
  refine List.eq_of_perm_of_sorted ?_ (pySorted_sorted _) ?_
  · exact (pySorted_perm (names ++ [x])).trans
      ((pySorted_perm names).symm.append_right [x])
  · refine List.pairwise_append.mpr ⟨pySorted_sorted names, List.pairwise_singleton _ _, ?_⟩
    intro a ha b hb
    rw [List.mem_singleton] at hb
    subst hb
    exact hx a ((pySorted_perm names).mem_iff.mp ha)

/-- Counterexample to C1 as stated: the claim includes catalogs where two
distinct names normalise to the same symbol, but for the catalog
`{a!b, a_b}` the enum header declares the enumerator `a_b` twice
(`a_b = 0, a_b = 1`) — ill-formed C++ that does not compile — so the two
lookup mappings the claim quantifies over never exist there. -/
theorem claim_C1_counterexample :
    ("a!b" : String) ≠ "a_b" ∧
    enumSymbols ["a!b", "a_b"] = ["a_b", "a_b"] ∧
    ¬ (enumSymbols ["a!b", "a_b"]).Nodup :=
  ⟨by decide, by decide, by decide⟩

/-- Claim C1 (amended): for every catalog whose generated symbols are
pairwise distinct — so the generated header is well-formed and the two maps
exist — taking the symbol generated for a name `n`, mapping it through the
symbol-to-string direction and the resulting string back through the
string-to-symbol direction yields exactly the symbol generated for `n`, for
all entries.  Catalogs where two distinct names normalise to one symbol
produce an ill-formed header instead (see the counterexample). -/
theorem claim_C1_amended (names : List String) (hinj : (enumSymbols names).Nodup)
    (n : String) (hn : n ∈ names) :
    ∃ m, iconToStringMap names (nameToEnum n) = some m ∧
      stringToIconMap names m = some (nameToEnum n) :=
  ⟨n, (lookup_roundtrip names hinj hn).1, (lookup_roundtrip names hinj hn).2⟩

/-- Witness for the amended C1 on a collision-free catalog. -/
theorem claim_C1_amended_witness :
    ∃ m, iconToStringMap ["alarm-clock", "box"] (nameToEnum "alarm-clock") = some m ∧
      stringToIconMap ["alarm-clock", "box"] m = some (nameToEnum "alarm-clock") :=
  claim_C1_amended ["alarm-clock", "box"] (by decide) "alarm-clock" (by decide)

/-- Claim C5: the enum header assigns each icon name the ordinal equal to its
zero-based position in the sorted name list, `ICON_COUNT` equals the number
of records, the scenario `["arrow-left", "arrow-right", "zebra"]` yields
ordinals 0, 1, 2 in that order with 3 lookup-table entries, and appending one
name that sorts last leaves every existing ordinal unchanged. -/
theorem claim_C5 (names : List String) (x : String) (hx : ∀ m ∈ names, pyLE m x) :
    iconCountConstant names = names.length ∧
    (∀ p ∈ enumOrdinalPairs names, (pySorted names).get? p.1 = some p.2) ∧
    enumOrdinalPairs (names ++ [x]) = enumOrdinalPairs names ++ [(names.length, x)] ∧
    enumOrdinalPairs ["arrow-left", "arrow-right", "zebra"] =
      [(0, "arrow-left"), (1, "arrow-right"), (2, "zebra")] ∧
    (stringEntries ["arrow-left", "arrow-right", "zebra"]).length = 3 := by
  refine ⟨rfl, ?_, ?_, by decide, by decide⟩
  · intro p hp
    have h := enumerateFrom_mem_get hp
    simpa using h.2
  · rw [enumOrdinalPairs, pySorted_append_last names x hx, enumerateFrom_append]
    have hl : (pySorted names).length = names.length := (pySorted_perm names).length_eq
    simp [enumOrdinalPairs, enumerateFrom, hl]

/-- Witness for C5 at the scenario catalog, appending `zz` which sorts last. -/
theorem claim_C5_witness :
    iconCountConstant ["arrow-left", "arrow-right", "zebra"] = 3 ∧
    enumOrdinalPairs (["arrow-left", "arrow-right", "zebra"] ++ ["zz"]) =
      enumOrdinalPairs ["arrow-left", "arrow-right", "zebra"] ++ [(3, "zz")] := by
  have h := claim_C5 ["arrow-left", "arrow-right", "zebra"] "zz" (by decide)
  exact ⟨h.1, h.2.2.1⟩

/-- Claim C6: `_name_to_enum` computes the generated symbol by exactly the
three spec steps in order: replace characters outside `[A-Za-z0-9_]` with
`_`, prefix the marker token `Icon_` when the result starts with a digit,
prefix the escape token `icon_` on collision with the reserved words. -/
theorem claim_C6 (name : String) :
    nameToEnum name = specStep3 (specStep2 (specStep1 name)) := by
  have h1 : replaceNonWord name = specStep1 name := rfl
  have h2 : ∀ s, escapeLeadingDigit s = specStep2 s := by
    intro s
    rw [escapeLeadingDigit, specStep2]
    cases h : s.toList with
    | nil => simp
    | cons c cs => simp
  have h3 : ∀ s, escapeKeyword s = specStep3 s := fun _ => rfl
  rw [nameToEnum, h1, h2, h3]

/-! ## `tools/build_resources.py` -/

/-- Helper for substring containment: does `txt` start with `pat`? -/
def listStartsWith : List Char → List Char → Bool
  | [], _ => true
  | _ :: _, [] => false
  | a :: as, b :: bs => a = b && listStartsWith as bs

/-- Substring containment of `pat` in `txt`, at any position. -/
def listContainsSub (pat : List Char) : List Char → Bool
  | [] => pat.isEmpty
  | c :: rest => listStartsWith pat (c :: rest) || listContainsSub pat rest

/-- Python `kw in s`: substring containment on code points. -/
def pyIn (kw s : String) : Bool := listContainsSub kw.toList s.toList

/-- Python `s.replace('-', ' ')`. -/
def pyReplaceDash (s : String) : String :=
  String.mk (s.toList.map (fun c => if c = '-' then ' ' else c))

/-- Python `s.split()` (no argument): split on whitespace runs, dropping
empty tokens; `acc` holds the reversed current token. -/
def splitWsAux (acc : List Char) : List Char → List String
  | [] => if acc.isEmpty then [] else [String.mk acc.reverse]
  | c :: rest =>
    if c.isWhitespace then
      if acc.isEmpty then splitWsAux [] rest
      else String.mk acc.reverse :: splitWsAux [] rest
    else splitWsAux (c :: acc) rest

/-- Python `s.split()`. -/
def pySplitWs (s : String) : List String := splitWsAux [] s.toList

/-- `_generate_tags_from_name`: hyphen parts plus keyword-group tags, then
`list(set(tags))`; the Python set order is unspecified, modelled as
first-occurrence deduplication (no theorem depends on this order). -/
def generateTagsFromName (name : String) : List String :=
  let parts := pySplitWs (pyReplaceDash name)
  let tags := parts
  let tags := tags ++ (if ["arrow", "chevron"].any (fun w => pyIn w name) then ["navigation"] else [])
  let tags := tags ++ (if ["file", "folder", "document"].any (fun w => pyIn w name) then ["files"] else [])
  let tags := tags ++ (if ["user", "person", "people"].any (fun w => pyIn w name) then ["users"] else [])
  let tags := tags ++ (if ["heart", "star", "like"].any (fun w => pyIn w name) then ["social"] else [])
  tags.dedup

/-- The `category_keywords` table of `_categorize_icon`. -/
def categoryKeywords : List (String × List String) :=
  [("navigation", ["arrow", "chevron", "menu", "home", "back", "forward"]),
   ("files", ["file", "folder", "document", "save", "download", "upload"]),
   ("communication", ["mail", "message", "phone", "chat", "send"]),
   ("media", ["play", "pause", "stop", "music", "video", "camera"]),
   ("social", ["heart", "star", "like", "share", "user", "users"]),
   ("system", ["settings", "cog", "gear", "power", "battery", "wifi"]),
   ("editing", ["edit", "pen", "pencil", "brush", "cut", "copy", "paste"]),
   ("business", ["briefcase", "chart", "graph", "money", "bank", "credit"])]

/-- `_categorize_icon`: a name earns a category when it contains any keyword
of that category's list as a substring; `general` exactly on no match. -/
def categorizeIcon (name : String) : List String :=
  let categories :=
    (categoryKeywords.filter (fun p => p.2.any (fun kw => pyIn kw name))).map Prod.fst
  if categories.isEmpty then ["general"] else categories

/-- One record of the metadata store built by `generate_metadata_from_svg`. -/
structure IconRecord where
  name : String
  svgFile : String
  tags : List String
  categories : List String
  contributors : List String
deriving DecidableEq

/-- The record `generate_metadata_from_svg` stores for one SVG base name. -/
def mkIconRecord (name : String) : IconRecord :=
  { name := name
    svgFile := "svg/" ++ name ++ ".svg"
    tags := generateTagsFromName name
    categories := categorizeIcon name
    contributors := [] }

/-- The record `process_single_icon` of `process_lucide_icons.py` stores for
one icon: `tags`, `categories` and `contributors` are read from the sibling
JSON metadata via `metadata.get(..., [])` and carried through unchanged —
with no JSON file, `metadata = {}` and all three default to `[]`.  No
keyword derivation happens on this path. -/
def processSingleIconRecord (name : String)
    (metaTags metaCategories metaContributors : List String) : IconRecord :=
  { name := name
    svgFile := "svg/" ++ name ++ ".svg"
    tags := metaTags
    categories := metaCategories
    contributors := metaContributors }

/-- Python `d[k] = v` on a dict kept as an insertion-ordered association
list: replace in place when the key exists, else append. -/
def dictInsert (d : List (String × V)) (k : String) (v : V) : List (String × V) :=
  if d.any (fun p => p.1 = k) then d.map (fun p => if p.1 = k then (k, v) else p)
  else d ++ [(k, v)]

/-- The `icons_data` dict of `generate_metadata_from_svg`, keyed and ordered
by the scanned SVG names. -/
def buildIconsData (svgNames : List String) : List (String × IconRecord) :=
  svgNames.foldl (fun d n => dictInsert d n (mkIconRecord n)) []

/-- The top-level structure serialised to `icons.json`; `json.dump` writes
the `icons` dict in its insertion order, so two stores serialise to the same
bytes exactly when these structures are equal. -/
structure IconsMetadata where
  icons : List (String × IconRecord)
  count : Nat
  version : String
deriving DecidableEq

/-- `generate_metadata_from_svg`: the metadata written to `icons.json`. -/
def generateMetadataFromSvg (svgNames : List String) : IconsMetadata :=
  let iconsData := buildIconsData svgNames
  { icons := iconsData, count := iconsData.length, version := "1.0.0" }

/-- `categories[category].append(icon_name)` with dict-of-list semantics
(`if category not in categories: categories[category] = []` first). -/
def dictAppend (d : List (String × List String)) (k : String) (n : String) :
    List (String × List String) :=
  if d.any (fun p => p.1 = k) then d.map (fun p => if p.1 = k then (p.1, p.2 ++ [n]) else p)
  else d ++ [(k, [n])]

/-- The label→names index built by `_generate_categories_and_tags` (and by
`generate_metadata` of `process_lucide_icons.py`) from `(name, labels)`
items in dict iteration order. -/
def buildLabelIndex (items : List (String × List String)) : List (String × List String) :=
  items.foldl (fun d it => it.2.foldl (fun d c => dictAppend d c it.1) d) []

/-- The name list a label maps to in a label index (empty when absent). -/
def indexNames (d : List (String × List String)) (c : String) : List String :=
  ((d.find? (fun p => p.1 = c)).map Prod.snd).getD []

/-- `categories.json` content for a metadata store. -/
def categoriesJson (icons : List (String × IconRecord)) : List (String × List String) :=
  buildLabelIndex (icons.map (fun p => (p.1, p.2.categories)))

/-- `tags.json` content for a metadata store. -/
def tagsJson (icons : List (String × IconRecord)) : List (String × List String) :=
  buildLabelIndex (icons.map (fun p => (p.1, p.2.tags)))

theorem find?_append_eq (p : α → Bool) (l₁ l₂ : List α) :
    (l₁ ++ l₂).find? p = ((l₁.find? p).map some).getD (l₂.find? p) := by
  induction l₁ with
  | nil => simp
  | cons a l₁ ih =>
    by_cases h : p a
    · simp [List.find?_cons, h]
    · simp only [List.cons_append, List.find?_cons, h]
      simpa [h] using ih

theorem indexNames_dictAppend (d : List (String × List String)) (k n c : String) :
    indexNames (dictAppend d k n) c =
      if c = k then indexNames d c ++ [n] else indexNames d c := by
  rw [dictAppend]
  by_cases hany : d.any (fun p => p.1 = k)
  · rw [if_pos hany]
    have hfind : ∀ l : List (String × List String),
        (l.map (fun p => if p.1 = k then (p.1, p.2 ++ [n]) else p)).find?
            (fun p => p.1 = c) =
          (l.find? (fun p => p.1 = c)).map
            (fun p => if p.1 = k then (p.1, p.2 ++ [n]) else p) := by
      intro l
      rw [List.find?_map]
      have hpred : ((fun p : String × List String => decide (p.1 = c)) ∘
          (fun p : String × List String => if p.1 = k then (p.1, p.2 ++ [n]) else p)) =
          (fun p : String × List String => decide (p.1 = c)) := by
        funext p
        by_cases hpk : p.1 = k <;> simp [Function.comp, hpk]
      rw [hpred]
    rw [indexNames, hfind d]
    by_cases hck : c = k
    · subst hck
      obtain ⟨q, hq⟩ := List.any_eq_true.mp hany
      cases hfd : d.find? (fun p => p.1 = c) with
      | none =>
        rw [List.find?_eq_none] at hfd
        exact absurd (of_decide_eq_true hq.2) (by simpa using hfd q hq.1)
      | some q0 =>
        have hq0 : q0.1 = c := by simpa using List.find?_some hfd
        simp [indexNames, hfd, hq0]
    · cases hfd : d.find? (fun p => p.1 = c) with
      | none => simp [indexNames, hfd, hck]
      | some q0 =>
        have hq0 : q0.1 = c := by simpa using List.find?_some hfd
        have : ¬ q0.1 = k := by rw [hq0]; exact hck
        simp [indexNames, hfd, hck, this]
  · rw [if_neg hany]
    have hnone : d.find? (fun p => p.1 = k) = none := by
      rw [List.find?_eq_none]
      intro q hq
      simp only [List.any_eq_true, not_exists] at hany
      intro hqk
      exact hany q ⟨hq, hqk⟩
    by_cases hck : c = k
    · subst hck
      have : indexNames d c = [] := by simp [indexNames, hnone]
      simp [indexNames, find?_append_eq, hnone, this]
    · cases hfd : d.find? (fun p => p.1 = c) with
      | none =>
        simp [indexNames, find?_append_eq, hfd, hck, Ne.symm hck]
      | some q0 =>
        simp [indexNames, find?_append_eq, hfd, hck]

theorem indexNames_labelFold (nm : String) (ls : List String) (hnd : ls.Nodup)
    (d : List (String × List String)) (c : String) :
    indexNames (ls.foldl (fun d c => dictAppend d c nm) d) c =
      indexNames d c ++ (if c ∈ ls then [nm] else []) := by
  induction ls generalizing d with
  | nil => simp
  | cons a ls ih =>
    simp only [List.foldl_cons]
    rw [ih (List.Nodup.of_cons hnd) (dictAppend d a nm), indexNames_dictAppend]
    by_cases hca : c = a
    · subst hca
      have hnotin : c ∉ ls := (List.nodup_cons.mp hnd).1
      simp [hnotin]
    · simp [hca]

theorem indexNames_buildLabelIndex (items : List (String × List String))
    (hnd : ∀ it ∈ items, it.2.Nodup) (c : String) :
    indexNames (buildLabelIndex items) c =
      (items.filter (fun it => decide (c ∈ it.2))).map Prod.fst := by
  induction items using List.reverseRecOn with
  | nil => simp [buildLabelIndex, indexNames]
  | append_singleton items it ih =>
    have hnd' : ∀ p ∈ items, p.2.Nodup := fun p hp => hnd p (List.mem_append_left _ hp)
    have hit : it.2.Nodup := hnd it (List.mem_append_right _ (List.mem_singleton_self it))
    rw [buildLabelIndex, List.foldl_append]
    simp only [List.foldl_cons, List.foldl_nil]
    rw [indexNames_labelFold it.1 it.2 hit _ c]
    rw [show (List.foldl (fun d it => it.2.foldl (fun d c => dictAppend d c it.1) d)
      [] items) = buildLabelIndex items from rfl]
    rw [ih hnd', List.filter_append, List.map_append]
    by_cases hc : c ∈ it.2 <;> simp [hc]

theorem buildIconsData_mem (svgNames : List String) :
    ∀ p ∈ buildIconsData svgNames, p.2 = mkIconRecord p.1 := by
  suffices h : ∀ (l : List String) (d : List (String × IconRecord)),
      (∀ p ∈ d, p.2 = mkIconRecord p.1) →
      ∀ p ∈ l.foldl (fun d n => dictInsert d n (mkIconRecord n)) d,
        p.2 = mkIconRecord p.1 by
    exact h svgNames [] (by simp)
  intro l
  induction l with
  | nil => intro d hd; simpa using hd
  | cons n l ih =>
    intro d hd
    simp only [List.foldl_cons]
    refine ih _ ?_
    intro p hp
    rw [dictInsert] at hp
    by_cases hany : d.any (fun q => q.1 = n)
    · rw [if_pos hany] at hp
      obtain ⟨q, hq, hqp⟩ := List.mem_map.mp hp
      by_cases hqn : q.1 = n
      · rw [if_pos hqn] at hqp
        subst hqp
        rfl
      · rw [if_neg hqn] at hqp
        subst hqp
        exact hd q hq
    · rw [if_neg hany] at hp
      rcases List.mem_append.mp hp with h | h
      · exact hd p h
      · rw [List.mem_singleton] at h
        subst h
        rfl

theorem dictInsert_keys (d : List (String × V)) (k : String) (v : V) :
    (dictInsert d k v).map Prod.fst =
      if d.any (fun p => p.1 = k) then d.map Prod.fst else d.map Prod.fst ++ [k] := by
  rw [dictInsert]
  by_cases hany : d.any (fun p => p.1 = k)
  · rw [if_pos hany, if_pos hany, List.map_map]
    refine List.map_congr_left ?_
    intro p _
    by_cases hpk : p.1 = k <;> simp [Function.comp, hpk]
  · rw [if_neg hany, if_neg hany]
    simp

theorem buildIconsData_keys_nodup (svgNames : List String) :
    ((buildIconsData svgNames).map Prod.fst).Nodup := by
  suffices h : ∀ (l : List String) (d : List (String × IconRecord)),
      (d.map Prod.fst).Nodup →
      ((l.foldl (fun d n => dictInsert d n (mkIconRecord n)) d).map Prod.fst).Nodup by
    exact h svgNames [] (by simp)
  intro l
  induction l with
  | nil => intro d hd; simpa using hd
  | cons n l ih =>
    intro d hd
    simp only [List.foldl_cons]
    refine ih _ ?_
    rw [dictInsert_keys]
    by_cases hany : d.any (fun p => p.1 = n)
    · rw [if_pos hany]; exact hd
    · rw [if_neg hany]
      have hn : n ∉ d.map Prod.fst := by
        intro hmem
        obtain ⟨p, hp, hpn⟩ := List.mem_map.mp hmem
        exact hany (List.any_eq_true.mpr ⟨p, hp, by simpa using hpn⟩)
      simp [List.nodup_append, hd, hn]

theorem categoryKeywords_keys_nodup : (categoryKeywords.map Prod.fst).Nodup := by decide

theorem categorizeIcon_nodup (name : String) : (categorizeIcon name).Nodup := by
  simp only [categorizeIcon]
  by_cases h : ((categoryKeywords.filter
      (fun p => p.2.any (fun kw => pyIn kw name))).map Prod.fst).isEmpty
  · simp [h]
  · rw [if_neg h]
    exact List.Nodup.sublist
      (List.Sublist.map Prod.fst (List.filter_sublist categoryKeywords))
      categoryKeywords_keys_nodup

theorem pySorted_eq_of_perm {l1 l2 : List String} (h : l1.Perm l2) :
    pySorted l1 = pySorted l2 :=
  List.eq_of_perm_of_sorted
    ((pySorted_perm l1).trans (h.trans (pySorted_perm l2).symm))
    (pySorted_sorted l1) (pySorted_sorted l2)

/-- Counterexample to C3 as stated: the serialised catalog (`icons.json`) is
not independent of scan order — `json.dump` writes the `icons` dict in
insertion order, which is the SVG scan order, so the same name set scanned in
two orders produces different bytes. -/
theorem claim_C3_counterexample :
    (["b", "a"] : List String).Perm ["a", "b"] ∧
    generateMetadataFromSvg ["b", "a"] ≠ generateMetadataFromSvg ["a", "b"] ∧
    (generateMetadataFromSvg ["b", "a"]).icons.map Prod.fst = ["b", "a"] ∧
    (generateMetadataFromSvg ["a", "b"]).icons.map Prod.fst = ["a", "b"] :=
  ⟨by decide, by decide, by decide, by decide⟩

/-- Claim C3 (amended): for a fixed set of input file names the enumeration
artifact, the count constant and the lookup-table artifact are identical
across runs independent of scan order (any permutation of the names); the
serialised catalog lists entries in scan order, so it is byte-identical only
across runs with the same scan order. -/
theorem claim_C3_amended (names1 names2 : List String) (h : names1.Perm names2) :
    enumOrdinalPairs names1 = enumOrdinalPairs names2 ∧
    iconCountConstant names1 = iconCountConstant names2 ∧
    stringEntries names1 = stringEntries names2 := by
  have hs : pySorted names1 = pySorted names2 := pySorted_eq_of_perm h
  exact ⟨by simp only [enumOrdinalPairs, hs], h.length_eq, by simp only [stringEntries, hs]⟩

/-- Witness for the amended C3 at a two-element name set scanned in both
orders. -/
theorem claim_C3_amended_witness :
    enumOrdinalPairs ["b", "a"] = enumOrdinalPairs ["a", "b"] ∧
    iconCountConstant ["b", "a"] = iconCountConstant ["a", "b"] ∧
    stringEntries ["b", "a"] = stringEntries ["a", "b"] :=
  claim_C3_amended ["b", "a"] ["a", "b"] (by decide)

/-- Counterexample to C4 as stated: for the scan order
`["b-arrow", "a-arrow"]` the category index maps `navigation` to
`["b-arrow", "a-arrow"]`, which is not in lexicographically sorted order. -/
theorem claim_C4_counterexample :
    indexNames (categoriesJson (buildIconsData ["b-arrow", "a-arrow"])) "navigation" =
      ["b-arrow", "a-arrow"] ∧
    ¬ pyLE "b-arrow" "a-arrow" :=
  ⟨by decide, by decide⟩

/-- Claim C4 (amended): in `categories.json` and `tags.json` every label maps
to exactly the icon names carrying that label, listed in catalog iteration
(scan) order — not lexicographically sorted. -/
theorem claim_C4_amended (svgNames : List String) (c : String) :
    indexNames (categoriesJson (buildIconsData svgNames)) c =
      ((buildIconsData svgNames).filter (fun p => decide (c ∈ p.2.categories))).map Prod.fst ∧
    indexNames (tagsJson (buildIconsData svgNames)) c =
      ((buildIconsData svgNames).filter (fun p => decide (c ∈ p.2.tags))).map Prod.fst := by
  constructor
  · rw [categoriesJson, indexNames_buildLabelIndex]
    · rw [List.filter_map, List.map_map]
      rfl
    · intro it hit
      obtain ⟨p, hp, rfl⟩ := List.mem_map.mp hit
      have hrec := buildIconsData_mem svgNames p hp
      show p.2.categories.Nodup
      rw [hrec]
      exact categorizeIcon_nodup p.1
  · rw [tagsJson, indexNames_buildLabelIndex]
    · rw [List.filter_map, List.map_map]
      rfl
    · intro it hit
      obtain ⟨p, hp, rfl⟩ := List.mem_map.mp hit
      have hrec := buildIconsData_mem svgNames p hp
      show p.2.tags.Nodup
      rw [hrec]
      exact List.nodup_dedup _

/-- Characterisation of `_categorize_icon` (the Metadata Synthesizer path):
non-empty, a label present exactly on a substring keyword match, exactly
`["general"]` when no keyword matches. -/
theorem categorizeIcon_spec (name : String) :
    categorizeIcon name ≠ [] ∧
    (∀ c, c ∈ categorizeIcon name ↔
      ((∃ kws, (c, kws) ∈ categoryKeywords ∧ ∃ kw ∈ kws, pyIn kw name = true) ∨
       (c = "general" ∧ ∀ p ∈ categoryKeywords, ∀ kw ∈ p.2, ¬ pyIn kw name = true))) ∧
    ((∀ p ∈ categoryKeywords, ∀ kw ∈ p.2, ¬ pyIn kw name = true) →
      categorizeIcon name = ["general"]) := by
  have hchar : ∀ c, (c ∈ (categoryKeywords.filter
      (fun p => p.2.any (fun kw => pyIn kw name))).map Prod.fst ↔
      ∃ kws, (c, kws) ∈ categoryKeywords ∧ ∃ kw ∈ kws, pyIn kw name = true) := by
    intro c
    constructor
    · intro hc
      obtain ⟨p, hp, rfl⟩ := List.mem_map.mp hc
      have hpf := List.mem_filter.mp hp
      obtain ⟨kw, hkw, hkwt⟩ := List.any_eq_true.mp hpf.2
      exact ⟨p.2, by simpa using hpf.1, kw, hkw, hkwt⟩
    · rintro ⟨kws, hmem, kw, hkw, hkwt⟩
      exact List.mem_map.mpr ⟨(c, kws),
        List.mem_filter.mpr ⟨hmem, List.any_eq_true.mpr ⟨kw, hkw, hkwt⟩⟩, rfl⟩
  have hemptyiff : ((categoryKeywords.filter
      (fun p => p.2.any (fun kw => pyIn kw name))).map Prod.fst).isEmpty = true ↔
      (∀ p ∈ categoryKeywords, ∀ kw ∈ p.2, ¬ pyIn kw name = true) := by
    rw [List.isEmpty_iff, List.map_eq_nil_iff, List.filter_eq_nil_iff]
    constructor
    · intro h p hp kw hkw hkwt
      exact h p hp (List.any_eq_true.mpr ⟨kw, hkw, hkwt⟩)
    · intro h p hp hany
      obtain ⟨kw, hkw, hkwt⟩ := List.any_eq_true.mp hany
      exact h p hp kw hkw hkwt
  have hunfold : categorizeIcon name =
      (if ((categoryKeywords.filter
          (fun p => p.2.any (fun kw => pyIn kw name))).map Prod.fst).isEmpty
       then ["general"]
       else (categoryKeywords.filter
          (fun p => p.2.any (fun kw => pyIn kw name))).map Prod.fst) := rfl
  by_cases hE : ((categoryKeywords.filter
      (fun p => p.2.any (fun kw => pyIn kw name))).map Prod.fst).isEmpty
  · rw [hunfold, if_pos hE]
    have hno := hemptyiff.mp hE
    refine ⟨by simp, ?_, fun _ => rfl⟩
    intro c
    constructor
    · intro hc
      rw [List.mem_singleton] at hc
      exact Or.inr ⟨hc, hno⟩
    · rintro (⟨kws, hmem, kw, hkw, hkwt⟩ | ⟨hc, _⟩)
      · exact absurd hkwt (hno (c, kws) hmem kw hkw)
      · simp [hc]
  · rw [hunfold, if_neg hE]
    have hne : ¬ (∀ p ∈ categoryKeywords, ∀ kw ∈ p.2, ¬ pyIn kw name = true) :=
      fun h => hE (hemptyiff.mpr h)
    refine ⟨?_, ?_, fun h => absurd h hne⟩
    · intro hnil
      rw [← List.isEmpty_iff] at hnil
      exact hE hnil
    · intro c
      rw [hchar c]
      constructor
      · exact Or.inl
      · rintro (h | ⟨_, h⟩)
        · exact h
        · exact absurd h hne

/-- Counterexample to C7 as stated: the claim covers every record of a
synthesized catalog and cites `process_single_icon`
(`process_lucide_icons.py`), where `categories = metadata.get("categories",
[])` is carried through unchanged.  An icon named `arrow-left` with no
sibling JSON metadata gets an empty categories set — not non-empty, not
`["general"]` — and carries no `navigation` label although its name contains
the category keyword `arrow`, so the keyword biconditional fails too. -/
theorem claim_C7_counterexample :
    (processSingleIconRecord "arrow-left" [] [] []).categories = [] ∧
    pyIn "arrow" "arrow-left" = true ∧
    ("navigation", ["arrow", "chevron", "menu", "home", "back", "forward"]) ∈
      categoryKeywords ∧
    "navigation" ∉ (processSingleIconRecord "arrow-left" [] [] []).categories :=
  ⟨rfl, by decide, by decide, by decide⟩

/-- Claim C7 (amended): every record synthesized from SVG names by
`generate_metadata_from_svg` carries `_categorize_icon` of its name as its
categories set, which is non-empty, contains a label exactly when the name
contains (as a substring) a keyword of that category's list — several labels
possible — and is exactly `["general"]` when no keyword matches; records
produced by the Lucide processing path (`process_single_icon`) instead carry
the upstream metadata categories through unchanged, which may be empty and
need not follow the keyword rule. -/
theorem claim_C7_amended (name : String) (svgNames : List String)
    (tg ct cb : List String) :
    (∀ p ∈ (generateMetadataFromSvg svgNames).icons,
      p.2.categories = categorizeIcon p.1) ∧
    categorizeIcon name ≠ [] ∧
    (∀ c, c ∈ categorizeIcon name ↔
      ((∃ kws, (c, kws) ∈ categoryKeywords ∧ ∃ kw ∈ kws, pyIn kw name = true) ∨
       (c = "general" ∧ ∀ p ∈ categoryKeywords, ∀ kw ∈ p.2, ¬ pyIn kw name = true))) ∧
    ((∀ p ∈ categoryKeywords, ∀ kw ∈ p.2, ¬ pyIn kw name = true) →
      categorizeIcon name = ["general"]) ∧
    (processSingleIconRecord name tg ct cb).categories = ct := by
  refine ⟨?_, (categorizeIcon_spec name).1, (categorizeIcon_spec name).2.1,
    (categorizeIcon_spec name).2.2, rfl⟩
  intro p hp
  rw [buildIconsData_mem svgNames p hp]
  rfl

/-- `generate_metadata` of `process_lucide_icons.py`: the metadata store
written from the processed `icons_data` dict. -/
def processedIconsMetadata (icons : List (String × IconRecord)) : IconsMetadata :=
  { icons := icons, count := icons.length, version := "1.0.0" }

/-- Claim C10: in every metadata store either writer produces, the top-level
`count` equals the number of entries of the `icons` mapping (whose keys are
distinct), including the empty catalog where `count = 0` and `icons` is
empty. -/
theorem claim_C10 (svgNames : List String) (icons : List (String × IconRecord)) :
    (generateMetadataFromSvg svgNames).count =
      (generateMetadataFromSvg svgNames).icons.length ∧
    ((generateMetadataFromSvg svgNames).icons.map Prod.fst).Nodup ∧
    (generateMetadataFromSvg []).count = 0 ∧
    (generateMetadataFromSvg []).icons = [] ∧
    (processedIconsMetadata icons).count = (processedIconsMetadata icons).icons.length :=
  ⟨rfl, buildIconsData_keys_nodup svgNames, rfl, rfl, rfl⟩

/-! ## `tools/validate_icon_usage.py` -/

/-- Python `s.split("-")`: split at every hyphen, keeping empty pieces. -/
def splitDashChars : List Char → List (List Char)
  | [] => [[]]
  | c :: rest =>
    let r := splitDashChars rest
    if c = '-' then [] :: r
    else match r with
      | t :: ts => (c :: t) :: ts
      | [] => [[c]]

/-- Python `s.split("-")` on strings. -/
def pySplitDash (s : String) : List String := (splitDashChars s.toList).map String.mk

/-- `_words_similarity(name1, name2) > 0.5`, modelled exactly: with
`I = len(words1 & words2)` and `U = len(words1 | words2)` the float
comparison `I / U > 0.5` holds iff `2 * I > U` (the counts are small
naturals and `0.5` is exact).  The guard returning `0.0` on an empty word
set is kept; word sets are counted via first-occurrence deduplication. -/
def wordsSimilarityGtHalf (name1 name2 : String) : Bool :=
  let words1 := (pySplitDash name1).dedup
  let words2 := (pySplitDash name2).dedup
  if words1.isEmpty || words2.isEmpty then false
  else decide (2 * (words1.filter (fun w => decide (w ∈ words2))).length >
    (words1 ++ words2.filter (fun w => decide (w ∉ words1))).length)

/-- `suggest_corrections`: one pass over the available names (a Python set,
iterated here in the order the names were given), appending a name on
substring containment either way, else on word similarity above 0.5;
truncated to 5 suggestions. -/
def suggestCorrections (invalid : String) (available : List String) : List String :=
  (available.foldl (fun acc icon =>
    if pyIn invalid icon || pyIn icon invalid then acc ++ [icon]
    else if wordsSimilarityGtHalf invalid icon then acc ++ [icon]
    else acc) []).take 5

/-- `validate_usage`: the used names missing from the available set
(`self.invalid_icons` keys, in usage order). -/
def invalidIcons (available used : List String) : List String :=
  used.filter (fun n => decide (n ∉ available))

/-- `validate_usage`'s return value: True iff every used name is available. -/
def validateUsage (available used : List String) : Bool :=
  (invalidIcons available used).isEmpty

/-- `main`: `sys.exit(0)` when `run_validation` returns True, else
`sys.exit(1)` — suggestions are only printed, never consulted for the exit
signal. -/
def validatorExitCode (available used : List String) : Nat :=
  if validateUsage available used then 0 else 1

/-! ## `tools/check_example_icons.py` -/

/-- The `common_mappings` synonym table of `suggest_similar_icons`. -/
def commonMappings : List (String × List String) :=
  [("edit", ["pencil", "pen", "square-pen"]),
   ("home", ["house", "house-plus"]),
   ("delete", ["trash", "trash-2"]),
   ("remove", ["x", "minus", "trash"]),
   ("add", ["plus", "plus-circle"]),
   ("close", ["x", "x-circle"]),
   ("options", ["settings", "cog"]),
   ("config", ["settings", "cog"]),
   ("preferences", ["settings", "sliders-horizontal"])]

/-- `suggest_similar_icons`: synonym-table hits (filtered to the available
set) first, then substring matches either way, then names sharing at least
one hyphen token, the last two passes skipping names already suggested;
truncated to 5.  Set iteration is modelled in list order. -/
def suggestSimilarIcons (invalid : String) (available : List String) : List String :=
  let s1 := match commonMappings.lookup invalid with
    | some mapped => mapped.filter (fun i => decide (i ∈ available))
    | none => []
  let s2 := available.foldl (fun acc icon =>
    if (pyIn invalid icon || pyIn icon invalid) && decide (icon ∉ acc)
    then acc ++ [icon] else acc) s1
  let s3 := available.foldl (fun acc icon =>
    if ((pySplitDash invalid).any (fun w => decide (w ∈ pySplitDash icon))) &&
        decide (icon ∉ acc)
    then acc ++ [icon] else acc) s2
  s3.take 5

theorem mem_foldl_condAppend (p : String → Bool) :
    ∀ (l acc : List String) (s : String),
      (s ∈ l.foldl (fun acc x => if p x then acc ++ [x] else acc) acc ↔
        s ∈ acc ∨ (s ∈ l ∧ p s = true)) := by
  intro l
  induction l with
  | nil => simp
  | cons x l ih =>
    intro acc s
    simp only [List.foldl_cons]
    by_cases hx : p x
    · rw [if_pos hx, ih (acc ++ [x]) s]
      constructor
      · rintro (h | h)
        · rcases List.mem_append.mp h with h | h
          · exact Or.inl h
          · rw [List.mem_singleton] at h
            subst h
            exact Or.inr ⟨List.mem_cons_self _ _, hx⟩
        · exact Or.inr ⟨List.mem_cons_of_mem _ h.1, h.2⟩
      · rintro (h | ⟨hmem, hps⟩)
        · exact Or.inl (List.mem_append_left _ h)
        · rcases List.mem_cons.mp hmem with h | h
          · subst h
            exact Or.inl (List.mem_append_right _ (List.mem_singleton_self _))
          · exact Or.inr ⟨h, hps⟩
    · rw [if_neg hx, ih acc s]
      constructor
      · rintro (h | h)
        · exact Or.inl h
        · exact Or.inr ⟨List.mem_cons_of_mem _ h.1, h.2⟩
      · rintro (h | ⟨hmem, hps⟩)
        · exact Or.inl h
        · rcases List.mem_cons.mp hmem with h | h
          · subst h
            exact absurd hps hx
          · exact Or.inr ⟨h, hps⟩

theorem nodup_foldl_condAppend (p : String → Bool) :
    ∀ (l acc : List String), acc.Nodup → l.Nodup → (∀ x ∈ l, x ∉ acc) →
      (l.foldl (fun acc x => if p x then acc ++ [x] else acc) acc).Nodup := by
  intro l
  induction l with
  | nil => intro acc ha _ _; simpa using ha
  | cons x l ih =>
    intro acc ha hl hdisj
    simp only [List.foldl_cons]
    by_cases hx : p x
    · rw [if_pos hx]
      refine ih (acc ++ [x]) ?_ (List.Nodup.of_cons hl) ?_
      · have hxa : x ∉ acc := hdisj x (List.mem_cons_self _ _)
        simp [List.nodup_append, ha, hxa]
      · intro y hy hmem
        rcases List.mem_append.mp hmem with h | h
        · exact hdisj y (List.mem_cons_of_mem _ hy) h
        · rw [List.mem_singleton] at h
          subst h
          exact (List.nodup_cons.mp hl).1 hy
    · rw [if_neg hx]
      exact ih acc ha (List.Nodup.of_cons hl)
        (fun y hy => hdisj y (List.mem_cons_of_mem _ hy))

theorem foldl_memAppend_extends (p : String → Bool) :
    ∀ (l acc : List String), ∃ t,
      l.foldl (fun acc x => if p x && decide (x ∉ acc) then acc ++ [x] else acc) acc =
        acc ++ t := by
  intro l
  induction l with
  | nil => exact fun acc => ⟨[], by simp⟩
  | cons x l ih =>
    intro acc
    simp only [List.foldl_cons]
    by_cases hx : (p x && decide (x ∉ acc)) = true
    · rw [if_pos hx]
      obtain ⟨t, ht⟩ := ih (acc ++ [x])
      exact ⟨[x] ++ t, by rw [ht, List.append_assoc]⟩
    · rw [if_neg hx]
      exact ih acc

theorem nodup_foldl_memAppend (p : String → Bool) :
    ∀ (l acc : List String), acc.Nodup →
      (l.foldl (fun acc x => if p x && decide (x ∉ acc) then acc ++ [x] else acc)
        acc).Nodup := by
  intro l
  induction l with
  | nil => intro acc ha; simpa using ha
  | cons x l ih =>
    intro acc ha
    simp only [List.foldl_cons]
    by_cases hx : (p x && decide (x ∉ acc)) = true
    · rw [if_pos hx]
      refine ih (acc ++ [x]) ?_
      have hxa : x ∉ acc := of_decide_eq_true (Bool.and_elim_right hx)
      simp [List.nodup_append, ha, hxa]
    · rw [if_neg hx]
      exact ih acc ha

theorem lookup_mem [BEq α] {l : List (α × β)} {a : α} {b : β}
    (h : List.lookup a l = some b) : ∃ k, (k, b) ∈ l := by
  induction l with
  | nil => simp [List.lookup] at h
  | cons p l ih =>
    obtain ⟨k, v⟩ := p
    simp only [List.lookup] at h
    split at h
    · obtain rfl : v = b := by injection h
      exact ⟨k, List.mem_cons_self _ _⟩
    · obtain ⟨k2, hk2⟩ := ih h
      exact ⟨k2, List.mem_cons_of_mem _ hk2⟩

theorem commonMappings_values_nodup : ∀ q ∈ commonMappings, q.2.Nodup := by decide

theorem suggestCorrections_eq (invalid : String) (available : List String) :
    suggestCorrections invalid available =
      (available.foldl (fun acc icon =>
        if ((pyIn invalid icon || pyIn icon invalid) ||
            wordsSimilarityGtHalf invalid icon) then acc ++ [icon] else acc) []).take 5 := by
  rw [suggestCorrections]
  congr 1
  refine congrFun (congrFun (congrArg _ ?_) _) _
  funext acc icon
  by_cases h1 : (pyIn invalid icon || pyIn icon invalid) = true
  · simp [h1]
  · simp [h1]

/-- Counterexample to C2 as stated: the usage validator's own suggester
(`suggest_corrections` in `validate_icon_usage.py`) has no synonym table, so
for invalid `"edit"` with `pencil`, `pen`, `square-pen` all available it
returns no suggestions at all; and the suggester that does own the synonym
table (`suggest_similar_icons` in `check_example_icons.py`) proposes
`a-x-y-z` for `a-b-c-d` although the two share no substring, no synonym
entry, and their hyphen-token Jaccard overlap is 1/7 ≤ 0.5 — its third tier
is any-shared-token, not Jaccard above 0.5. -/
theorem claim_C2_counterexample :
    suggestCorrections "edit" ["pencil", "pen", "square-pen"] = [] ∧
    suggestSimilarIcons "a-b-c-d" ["a-x-y-z"] = ["a-x-y-z"] ∧
    wordsSimilarityGtHalf "a-b-c-d" "a-x-y-z" = false ∧
    pyIn "a-b-c-d" "a-x-y-z" = false ∧
    pyIn "a-x-y-z" "a-b-c-d" = false ∧
    commonMappings.lookup "a-b-c-d" = none :=
  ⟨by decide, by decide, by decide, by decide, by decide, by decide⟩

/-- Claim C2 (amended): the usage validator flags a candidate invalid exactly
when it is absent from the available set, and its suggester
(`suggest_corrections`) proposes at most 5 suggestions without duplicates,
each an available name justified by substring containment in either
direction or by hyphen-token Jaccard overlap above 0.5, collected in one
pass (no synonym table, no priority ranking).  The fixed synonym table lives
in the example checker's `suggest_similar_icons`, whose suggestions for
`edit` begin with `pencil`, `pen`, `square-pen` in that order whenever those
are available; its later tiers add substring matches and then names sharing
at least one hyphen token (not Jaccard-thresholded), deduplicated and capped
at 5. -/
theorem claim_C2_amended (invalid : String) (available : List String)
    (hnd : available.Nodup) :
    (suggestCorrections invalid available).length ≤ 5 ∧
    (suggestCorrections invalid available).Nodup ∧
    (∀ s ∈ suggestCorrections invalid available, s ∈ available ∧
      (pyIn invalid s = true ∨ pyIn s invalid = true ∨
        wordsSimilarityGtHalf invalid s = true)) ∧
    (suggestSimilarIcons invalid available).length ≤ 5 ∧
    (suggestSimilarIcons invalid available).Nodup ∧
    (invalid = "edit" → "pencil" ∈ available → "pen" ∈ available →
      "square-pen" ∈ available →
      (suggestSimilarIcons invalid available).take 3 =
        ["pencil", "pen", "square-pen"]) := by
  refine ⟨?_, ?_, ?_, ?_, ?_, ?_⟩
  · rw [suggestCorrections]
    exact List.length_take_le _ _
  · rw [suggestCorrections_eq]
    refine List.Nodup.sublist (List.take_sublist _ _) ?_
    exact nodup_foldl_condAppend _ available [] (by simp) hnd (by simp)
  · intro s hs
    rw [suggestCorrections_eq] at hs
    have hs' := List.mem_of_mem_take hs
    rcases (mem_foldl_condAppend _ available [] s).mp hs' with h | ⟨hmem, hp⟩
    · simp at h
    · refine ⟨hmem, ?_⟩
      rcases Bool.or_eq_true_iff.mp hp with h | h
      · rcases Bool.or_eq_true_iff.mp h with h | h
        · exact Or.inl h
        · exact Or.inr (Or.inl h)
      · exact Or.inr (Or.inr h)
  · rw [suggestSimilarIcons]
    exact List.length_take_le _ _
  · rw [suggestSimilarIcons]
    refine List.Nodup.sublist (List.take_sublist _ _) ?_
    refine nodup_foldl_memAppend _ available _ ?_
    refine nodup_foldl_memAppend _ available _ ?_
    cases hl : commonMappings.lookup invalid with
    | none => simp
    | some mapped =>
      simp only []
      refine List.Nodup.sublist (List.filter_sublist _) ?_
      obtain ⟨k, hk⟩ := lookup_mem hl
      exact commonMappings_values_nodup (k, mapped) hk
  · intro hinv hp1 hp2 hp3
    subst hinv
    rw [suggestSimilarIcons]
    have hlk : commonMappings.lookup "edit" = some ["pencil", "pen", "square-pen"] := by
      decide
    rw [hlk]
    simp only []
    have hs1 : (["pencil", "pen", "square-pen"].filter
        (fun i => decide (i ∈ available))) = ["pencil", "pen", "square-pen"] := by
      simp [List.filter, hp1, hp2, hp3]
    rw [hs1]
    obtain ⟨t1, ht1⟩ := foldl_memAppend_extends
      (fun icon => pyIn "edit" icon || pyIn icon "edit") available
      ["pencil", "pen", "square-pen"]
    rw [ht1]
    obtain ⟨t2, ht2⟩ := foldl_memAppend_extends
      (fun icon => (pySplitDash "edit").any (fun w => decide (w ∈ pySplitDash icon)))
      available (["pencil", "pen", "square-pen"] ++ t1)
    rw [ht2, List.take_take, List.append_assoc]
    rfl

/-- Witness for the amended C2 at `edit` with exactly the three synonym
targets available. -/
theorem claim_C2_amended_witness :
    (suggestSimilarIcons "edit" ["pencil", "pen", "square-pen"]).take 3 =
      ["pencil", "pen", "square-pen"] ∧
    (suggestCorrections "edit" ["pencil", "pen", "square-pen"]).length ≤ 5 := by
  have h := claim_C2_amended "edit" ["pencil", "pen", "square-pen"] (by decide)
  exact ⟨h.2.2.2.2.2 rfl (by decide) (by decide) (by decide), h.1⟩

/-- Claim C8: the validator's exit signal is fail (1) whenever at least one
scanned candidate is absent from the available set — the exit path never
consults the suggestions — and a run whose candidates are all drawn from the
available set reports zero invalid entries and exits 0. -/
theorem claim_C8 (available used : List String) :
    ((∃ n ∈ used, n ∉ available) → validatorExitCode available used = 1) ∧
    ((∀ n ∈ used, n ∈ available) →
      invalidIcons available used = [] ∧ validatorExitCode available used = 0) := by
  constructor
  · rintro ⟨n, hn, hnav⟩
    have hne : invalidIcons available used ≠ [] := by
      intro hnil
      have := List.filter_eq_nil_iff.mp hnil n hn
      simp [hnav] at this
    have hne' : ¬ (invalidIcons available used).isEmpty = true := by
      rw [List.isEmpty_iff]
      exact hne
    simp [validatorExitCode, validateUsage, hne']
  · intro h
    have hnil : invalidIcons available used = [] := by
      rw [invalidIcons, List.filter_eq_nil_iff]
      intro n hn
      simp [h n hn]
    refine ⟨hnil, ?_⟩
    simp [validatorExitCode, validateUsage, hnil]

/-- Witness for C8: a missing candidate fails the run even though a
suggestion pool exists; an all-available candidate set passes. -/
theorem claim_C8_witness :
    validatorExitCode ["pencil"] ["edit"] = 1 ∧
    invalidIcons ["pencil"] ["pencil"] = [] ∧
    validatorExitCode ["pencil"] ["pencil"] = 0 :=
  ⟨(claim_C8 ["pencil"] ["edit"]).1 (by decide),
   ((claim_C8 ["pencil"] ["pencil"]).2 (by decide)).1,
   ((claim_C8 ["pencil"] ["pencil"]).2 (by decide)).2⟩

/-! ## Missing metadata store (`load_metadata` of `generate_headers.py`
and `generate_qrc.py`) -/

/-- `load_metadata`: `open(metadata_dir / "icons.json")` raises
`FileNotFoundError` when the store is absent; the uncaught exception aborts
the process with a non-zero exit and a message naming the missing required
input.  The filesystem is abstracted to whether the store exists. -/
def loadMetadata (store : Option IconsMetadata) : Except String IconsMetadata :=
  match store with
  | none => Except.error "FileNotFoundError: No such file or directory: icons.json"
  | some s => Except.ok s

/-- `generate_headers.py` `main`: loads the metadata first, only then writes
the two header files; the result carries the files written by the run. -/
def generateHeadersRun (store : Option IconsMetadata) : Except String (List String) :=
  match loadMetadata store with
  | Except.error e => Except.error e
  | Except.ok _ => Except.ok ["QtLucideEnums.h", "QtLucideStrings.h"]

/-- `generate_qrc.py` `main`: loads the metadata first, only then writes the
manifest file. -/
def generateQrcRun (store : Option IconsMetadata) : Except String (List String) :=
  match loadMetadata store with
  | Except.error e => Except.error e
  | Except.ok _ => Except.ok ["lucide_icons.qrc"]

/-- Process exit code of a run: 1 on an uncaught exception, 0 on success. -/
def exitCodeOf : Except String (List String) → Nat
  | Except.error _ => 1
  | Except.ok _ => 0

/-- Files a run writes: none when it aborts before generating. -/
def writesOf : Except String (List String) → List String
  | Except.error _ => []
  | Except.ok ws => ws

/-- Claim C9: with the metadata store missing, the header generator and the
manifest generator each exit non-zero with a message naming the missing
required input, fabricate no catalog, and write no files beyond what already
existed. -/
theorem claim_C9 (store : Option IconsMetadata) (h : store = none) :
    exitCodeOf (generateHeadersRun store) = 1 ∧
    writesOf (generateHeadersRun store) = [] ∧
    exitCodeOf (generateQrcRun store) = 1 ∧
    writesOf (generateQrcRun store) = [] ∧
    generateHeadersRun store =
      Except.error "FileNotFoundError: No such file or directory: icons.json" := by
  subst h
  exact ⟨rfl, rfl, rfl, rfl, rfl⟩

/-- Witness for C9 at the missing store. -/
theorem claim_C9_witness :
    exitCodeOf (generateHeadersRun none) = 1 ∧
    writesOf (generateHeadersRun none) = [] ∧
    exitCodeOf (generateQrcRun none) = 1 ∧
    writesOf (generateQrcRun none) = [] ∧
    generateHeadersRun none =
      Except.error "FileNotFoundError: No such file or directory: icons.json" :=
  claim_C9 none rfl

end QtLucide
